import Mathlib

/-
Verification of the word-retrieval pipeline (`wr_hidden.py`, `wr_data.py`).

Tensors are embedded as functions out of `Fin`-indexed shapes into `ℝ`
(idealised real arithmetic in place of floating point).  Fallible torch
operations (`torch.topk` with an out-of-range `k`) are embedded as
`Option`-valued functions; exceptions propagate as `none`.
-/

namespace WordRetrieval



/-- Euclidean norm of one row, `torch.linalg.norm(first, dim=1)` applied to
a single row of the matrix. -/
noncomputable def l2norm {h : ℕ} (v : Fin h → ℝ) : ℝ :=
  Real.sqrt (∑ d, v d ^ 2)

/-- Embedding of `cosine_similarity` from `wr_hidden.py`: each row of `first`
and `second` is divided by its Euclidean norm and the normalised matrices are
multiplied, `first_norm @ second_norm.T`. -/
noncomputable def cosine_similarity {n1 n2 h : ℕ}
    (first : Fin n1 → Fin h → ℝ) (second : Fin n2 → Fin h → ℝ) :
    Fin n1 → Fin n2 → ℝ :=
  fun i j => ∑ d, (first i d / l2norm (first i)) * (second j d / l2norm (second j))

/-- Descending sort of a list of reals (the order in which `torch.topk`
reports its values). -/
noncomputable def sortDesc (l : List ℝ) : List ℝ :=
  l.insertionSort (fun x y => y ≤ x)

/-- Values of `torch.topk` on a single vector: the `k` largest entries in
descending order.  The caller must ensure `k` is at most the length. -/
noncomputable def topkVals (k : ℕ) {m : ℕ} (v : Fin m → ℝ) : List ℝ :=
  (sortDesc (List.ofFn v)).take k

/-- Embedding of `torch.topk(a, k, dim=1).values`: per-row top-`k` values.
`torch.topk` raises when `k` exceeds the size of the selected dimension,
modelled by `none`. -/
noncomputable def torchTopkRows {n1 n2 : ℕ} (k : ℕ) (a : Fin n1 → Fin n2 → ℝ) :
    Option (Fin n1 → List ℝ) :=
  if k ≤ n2 then some (fun i => topkVals k (a i)) else none

/-- Embedding of `torch.topk(a, k, dim=0).values`: per-column top-`k` values,
`none` when `k` exceeds the number of rows. -/
noncomputable def torchTopkCols {n1 n2 : ℕ} (k : ℕ) (a : Fin n1 → Fin n2 → ℝ) :
    Option (Fin n2 → List ℝ) :=
  if k ≤ n1 then some (fun j => topkVals k (fun i => a i j)) else none

/-- Arithmetic mean of a list of reals (`Tensor.mean` along the top-k
dimension). -/
noncomputable def listMean (l : List ℝ) : ℝ :=
  l.sum / l.length

/-- Embedding of `margin_based_scoring` from `wr_hidden.py`.  The cosine
matrix `a` is returned unchanged for the `"absolute"` variant; otherwise the
per-row and per-column top-`min(k, dim)` means form the baseline
`b = (row_mean + col_mean) * 0.5 + eps`, and the result is `a - b` for
`"distance"` and `a / b` for every other tag. -/
noncomputable def margin_based_scoring {n1 n2 h : ℕ}
    (first : Fin n1 → Fin h → ℝ) (second : Fin n2 → Fin h → ℝ)
    (k : ℕ) (variant : String) (eps : ℝ) :
    Option (Fin n1 → Fin n2 → ℝ) :=
  let a := cosine_similarity first second
  if variant = "absolute" then some a
  else
    (torchTopkRows (min k n2) a).bind fun nnRow =>
      (torchTopkCols (min k n1) a).map fun nnCol =>
        let row_mean : Fin n1 → ℝ := fun i => listMean (nnRow i)
        let col_mean : Fin n2 → ℝ := fun j => listMean (nnCol j)
        let b : Fin n1 → Fin n2 → ℝ :=
          fun i j => (row_mean i + col_mean j) * (0.5 : ℝ) + eps
        if variant = "distance" then fun i j => a i j - b i j
        else fun i j => a i j / b i j

/-- Embedding of `torch.argmax(v)` on one row: index of the largest entry,
ties broken by the first occurrence. -/
noncomputable def torchArgmax {m : ℕ} [NeZero m] (v : Fin m → ℝ) : Fin m :=
  ((List.finRange m).argmax v).getD 0

/-- Embedding of `layer_accuracy` from `wr_hidden.py`:
`(score.argmax(dim=1) == arange(n)).float().mean()`. -/
noncomputable def layer_accuracy {n : ℕ} [NeZero n] (score : Fin n → Fin n → ℝ) : ℝ :=
  (∑ i, if torchArgmax (score i) = i then (1 : ℝ) else 0) / n

/-- Mean of the top-`min(k, m)` entries of a vector, the quantity the spec
calls the nearest-neighbour mean. -/
noncomputable def topkMean (k : ℕ) {m : ℕ} (v : Fin m → ℝ) : ℝ :=
  listMean (topkVals (min k m) v)

/-- Baseline used by the non-absolute variants, phrased as the spec does:
broadcast sum of the row-wise and column-wise nearest-neighbour means,
divided by 2, plus `eps`. -/
noncomputable def cslsBaseline {n1 n2 h : ℕ}
    (first : Fin n1 → Fin h → ℝ) (second : Fin n2 → Fin h → ℝ)
    (k : ℕ) (eps : ℝ) : Fin n1 → Fin n2 → ℝ :=
  fun i j =>
    (topkMean k (fun j' => cosine_similarity first second i j') +
     topkMean k (fun i' => cosine_similarity first second i' j)) / 2 + eps

/-- Constant one-by-one representation matrix, used as a concrete input. -/
noncomputable def oneMat : Fin 1 → Fin 1 → ℝ := fun _ _ => 1

/-- Embedding of `mean_hidden_state` from `wr_hidden.py`: the 0/1 attention
mask (modelled as `Bool`) is cast to the value dtype, the masked hidden
states are summed over the sequence dimension and divided by the mask
count. -/
noncomputable def mean_hidden_state {b l h : ℕ}
    (hidden_states : Fin b → Fin l → Fin h → ℝ)
    (attention_mask : Fin b → Fin l → Bool) : Fin b → Fin h → ℝ :=
  fun i d =>
    (∑ j, hidden_states i j d * (if attention_mask i j then (1 : ℝ) else 0)) /
      (∑ j, if attention_mask i j then (1 : ℝ) else 0)

/-- Concrete mask `[1, 1, 0]` from the test scenario of the spec. -/
def maskC5 : Fin 1 → Fin 3 → Bool := fun _ => ![true, true, false]

/-- Concrete hidden states `[[1,1],[3,3],[9,9]]` from the test scenario of
the spec. -/
noncomputable def hsC5 : Fin 1 → Fin 3 → Fin 2 → ℝ := fun _ => ![![1, 1], ![3, 3], ![9, 9]]

/-- Number of non-padding tokens of one sequence,
`attention_mask.ne(0).sum(dim=1)` from `wr_hidden.py`. -/
def maskCount {b l : ℕ} (attention_mask : Fin b → Fin l → Bool) (i : Fin b) : ℕ :=
  ∑ j, if attention_mask i j then 1 else 0

/-- Integer tensor indexing with python wrap-around for negative indices. -/
def torchWrapIndex (l : ℕ) (t : ℤ) : ℕ :=
  (if t < 0 then t + l else t).toNat

/-- Embedding of `last_token_hidden_state` from `wr_hidden.py`: for each
sequence, the hidden state at index `count_of_ones - 1`, with python
wrap-around for the negative index produced by an all-zero mask.  The
reduction mod `l` only discharges the `Fin` bound: the wrapped index is
always below `l` because the mask count is at most `l`. -/
noncomputable def last_token_hidden_state {b l h : ℕ} [NeZero l]
    (hidden_states : Fin b → Fin l → Fin h → ℝ)
    (attention_mask : Fin b → Fin l → Bool) : Fin b → Fin h → ℝ :=
  fun i d =>
    hidden_states i
      ⟨torchWrapIndex l ((maskCount attention_mask i : ℤ) - 1) % l,
        Nat.mod_lt _ (Nat.pos_of_ne_zero (NeZero.ne l))⟩ d

/-- Concrete right-padded mask `[1, 1, 1, 0, 0]` from the test scenario of
the spec. -/
def maskC6 : Fin 1 → Fin 5 → Bool := fun _ => ![true, true, true, false, false]

/-- Concrete hidden states with rows `[10], [20], [30], [40], [50]`. -/
noncomputable def hsC6 : Fin 1 → Fin 5 → Fin 1 → ℝ :=
  fun _ => ![![10], ![20], ![30], ![40], ![50]]

/-- Contiguous batches `sentences[start : start + batch_size]` for
`start in range(0, len(sentences), batch_size)`, as in
`layer_representation` from `wr_hidden.py`. -/
def chunkList {α : Type} (bs : ℕ) : List α → List (List α)
  | [] => []
  | x :: xs =>
    if h : bs = 0 then []
    else (x :: xs).take bs :: chunkList bs ((x :: xs).drop bs)
termination_by l => l.length
decreasing_by
  simp only [List.length_drop, List.length_cons]
  omega

/-- Embedding of `layer_representation` from `wr_hidden.py`: the model plus
tokenizer plus pooling composite is abstracted as `embed`, which maps one
batch of sentences to the list of pooled vectors for each layer; the
per-layer dict accumulated with `setdefault`/`append` and finished with
`torch.cat(..., dim=0)` is the concatenation of the per-batch pooled rows in
batch order. -/
def layer_representation {V : Type} (L : ℕ)
    (embed : List String → Fin L → List V)
    (sentences : List String) (batch_size : ℕ) : Fin L → List V :=
  fun layer => ((chunkList batch_size sentences).map fun batch => embed batch layer).flatten

/-- Concrete per-sentence embedding used in the C3 witness: sentence
length, at every layer. -/
def embedLen : List String → Fin 2 → List ℕ :=
  fun batch _ => batch.map String.length

/-! ### Embedding of `wr_hidden.py` -/


/-- Embedding of `sample_pairs` from `wr_data.py`: assert equal lengths,
clamp the sample size to the list length, draw that many indices and map
both lists through them. -/
def sample_pairs (base target : List String) (sampler : ℕ → ℕ → List ℕ)
    (sample_size : ℕ) : Option (List String × List String) :=
  if base.length = target.length then
    let m := min sample_size base.length
    let indices := sampler base.length m
    some (indices.map fun i => base.getD i default,
          indices.map fun i => target.getD i default)
  else none

/-- Loop body of `filter_pairs`: walk `base` with its index, reading
`target[i]` (an `IndexError`, hence `none`, once `target` is exhausted
while `base` is not), and keep the pairs in which both words tokenize to
exactly one token. -/
def filterPairsAux (tokLen : String → ℕ) :
    List String → List String → Option (List (String × String))
  | [], _ => some []
  | _ :: _, [] => none
  | b :: bs, t :: ts =>
    match filterPairsAux tokLen bs ts with
    | none => none
    | some rest =>
      some (if tokLen b = 1 ∧ tokLen t = 1 then (b, t) :: rest else rest)

/-- Embedding of `filter_pairs` from `wr_data.py`: the kept pairs, split
back into the two aligned lists.  There is no length precondition check in
the source. -/
def filter_pairs (base target : List String) (tokLen : String → ℕ) :
    Option (List String × List String) :=
  (filterPairsAux tokLen base target).map fun ps =>
    (ps.map Prod.fst, ps.map Prod.snd)

/-- Sampler drawing the first `k` indices, a concrete instance of the
`random.sample` contract used in the witnesses. -/
def firstKSampler : ℕ → ℕ → List ℕ := fun _ k => List.range k

/-- Sampler returning the first `k` indices in reverse, a concrete
instance of the `random.sample` contract. -/
def revSampler : ℕ → ℕ → List ℕ := fun _ k => (List.range k).reverse

/-- Two-row representation matrix `[[3,4],[5,0]]` (rows of norm 5, distinct
directions), the concrete input of the C2 witness. -/
noncomputable def ce2 : Fin 2 → Fin 2 → ℝ := ![![3, 4], ![5, 0]]

/-- Three-row representation matrix `[[3,4],[4,3],[-3,4]]` (norm-5 rows,
pairwise distinct, all cosines rational), the concrete input of the C2
counterexample. -/
noncomputable def ce3 : Fin 3 → Fin 2 → ℝ := ![![3, 4], ![4, 3], ![-3, 4]]

/-- Cosine-similarity matrix of `ce3` against itself. -/
noncomputable def A3 : Fin 3 → Fin 3 → ℝ :=
  ![![1, 24/25, 7/25], ![24/25, 1, 0], ![7/25, 0, 1]]

/-- Row means of `A3` (equal to its column means, by symmetry). -/
noncomputable def RM3 : Fin 3 → ℝ := ![56/75, 49/75, 32/75]

/-- The `"distance"`-variant score matrix of `ce3` against itself with
`k = 4` and `eps = 1e-6`. -/
noncomputable def S3 : Fin 3 → Fin 3 → ℝ :=
  fun i j => A3 i j - ((RM3 i + RM3 j) / 2 + 1/1000000)

/-! ### Lemmas and theorems -/

lemma margin_based_scoring_absolute {n1 n2 h : ℕ}
    (first : Fin n1 → Fin h → ℝ) (second : Fin n2 → Fin h → ℝ) (k : ℕ) (eps : ℝ) :
    margin_based_scoring first second k ("absolute") eps =
      some (cosine_similarity first second) := by
  simp [margin_based_scoring]

lemma margin_based_scoring_of_ne {n1 n2 h : ℕ}
    (first : Fin n1 → Fin h → ℝ) (second : Fin n2 → Fin h → ℝ)
    (k : ℕ) (variant : String) (eps : ℝ) (habs : variant ≠ "absolute") :
    margin_based_scoring first second k variant eps =
      some (if variant = "distance" then
              fun i j => cosine_similarity first second i j -
                cslsBaseline first second k eps i j
            else
              fun i j => cosine_similarity first second i j /
                cslsBaseline first second k eps i j) := by
  rw [margin_based_scoring]
  rw [if_neg habs]
  rw [torchTopkRows, if_pos (Nat.min_le_right k n2)]
  rw [torchTopkCols, if_pos (Nat.min_le_right k n1)]
  simp only [Option.some_bind, Option.map_some', Option.some.injEq]
  split
  · funext i j
    simp only [cslsBaseline, topkMean, Nat.min_comm]
    ring
  · funext i j
    simp only [cslsBaseline, topkMean, Nat.min_comm]
    ring

/-- C1: `margin_based_scoring` forms the cosine matrix `a`; `"absolute"`
returns `a` unchanged; otherwise the baseline `b` is the broadcast sum of
the per-row mean of the top-`min(k,n2)` values of each row and the
per-column mean of the top-`min(k,n1)` values of each column, divided by 2,
plus `eps`,
and the result is `a - b` for `"distance"` and `a / b` for every other
non-`"absolute"` tag. -/
theorem margin_based_scoring_variant_dispatch {n1 n2 h : ℕ}
    (first : Fin n1 → Fin h → ℝ) (second : Fin n2 → Fin h → ℝ)
    (k : ℕ) (eps : ℝ) (variant : String)
    (habs : variant ≠ "absolute") (hdist : variant ≠ "distance") :
    margin_based_scoring first second k ("absolute") eps =
      some (cosine_similarity first second) ∧
    margin_based_scoring first second k ("distance") eps =
      some (fun i j => cosine_similarity first second i j -
        cslsBaseline first second k eps i j) ∧
    margin_based_scoring first second k variant eps =
      some (fun i j => cosine_similarity first second i j /
        cslsBaseline first second k eps i j) := by
  refine ⟨margin_based_scoring_absolute first second k eps, ?_, ?_⟩
  · rw [margin_based_scoring_of_ne first second k ("distance") eps (by decide)]
    simp
  · rw [margin_based_scoring_of_ne first second k variant eps habs]
    rw [if_neg hdist]

/-- Witness for C1 at a concrete input: the generic branch applies to the
tag `"csls"`, which is neither `"absolute"` nor `"distance"`. -/
theorem margin_based_scoring_variant_dispatch_witness :
    (("csls" : String) ≠ "absolute") ∧ (("csls" : String) ≠ "distance") ∧
    margin_based_scoring oneMat oneMat 4 ("csls") (1 / 1000000) =
      some (fun i j => cosine_similarity oneMat oneMat i j /
        cslsBaseline oneMat oneMat 4 (1 / 1000000) i j) :=
  ⟨by decide, by decide,
    (margin_based_scoring_variant_dispatch oneMat oneMat 4 (1 / 1000000) ("csls")
      (by decide) (by decide)).2.2⟩

lemma sortDesc_length (l : List ℝ) : (sortDesc l).length = l.length :=
  List.length_insertionSort _ l

lemma topkVals_length (k : ℕ) {m : ℕ} (v : Fin m → ℝ) :
    (topkVals k v).length = min k m := by
  simp [topkVals, sortDesc_length]

/-- C7: with nonempty inputs and a positive `k`, `margin_based_scoring`
never fails even when `k` exceeds `n1` or `n2`: the row neighbourhood
shrinks to `min(k, n2)` and the column neighbourhood to `min(k, n1)`, and a
score matrix is always produced. -/
theorem margin_based_scoring_never_errors {n1 n2 h : ℕ}
    (first : Fin n1 → Fin h → ℝ) (second : Fin n2 → Fin h → ℝ)
    (k : ℕ) (variant : String) (eps : ℝ)
    (hn1 : 0 < n1) (hn2 : 0 < n2) (hk : 0 < k) :
    (∃ s, margin_based_scoring first second k variant eps = some s) ∧
    (∀ i, (topkVals (min k n2) (cosine_similarity first second i)).length =
      min k n2) ∧
    (∀ j, (topkVals (min k n1)
        (fun i => cosine_similarity first second i j)).length = min k n1) := by
  refine ⟨?_, ?_, ?_⟩
  · by_cases habs : variant = "absolute"
    · exact ⟨_, habs ▸ margin_based_scoring_absolute first second k eps⟩
    · exact ⟨_, margin_based_scoring_of_ne first second k variant eps habs⟩
  · intro i
    rw [topkVals_length, min_eq_left (Nat.min_le_right k n2)]
  · intro j
    rw [topkVals_length, min_eq_left (Nat.min_le_right k n1)]

/-- Witness for C7: one-element representation sets with `k = 5` larger
than both sizes still yield a score matrix. -/
theorem margin_based_scoring_never_errors_witness :
    0 < 1 ∧ 0 < 5 ∧
    (∃ s, margin_based_scoring oneMat oneMat 5 ("ratio") (1 / 1000000) = some s) :=
  ⟨Nat.one_pos, by decide,
    (margin_based_scoring_never_errors oneMat oneMat 5 ("ratio") (1 / 1000000)
      Nat.one_pos Nat.one_pos (by decide)).1⟩

lemma torchArgmax_argmax_eq {m : ℕ} [NeZero m] (v : Fin m → ℝ) :
    (List.finRange m).argmax v = some (torchArgmax v) := by
  rcases h : (List.finRange m).argmax v with _ | i
  · rw [List.argmax_eq_none, List.finRange_eq_nil] at h
    exact absurd h (NeZero.ne m)
  · rw [torchArgmax, h, Option.getD_some]

lemma torchArgmax_spec {m : ℕ} [NeZero m] (v : Fin m → ℝ) :
    (∀ j, v j ≤ v (torchArgmax v)) ∧
    (∀ j, v (torchArgmax v) ≤ v j → torchArgmax v ≤ j) := by
  have h := torchArgmax_argmax_eq v
  rw [List.argmax_eq_some_iff] at h
  refine ⟨fun j => h.2.1 j (List.mem_finRange j), fun j hle => ?_⟩
  have := h.2.2 j (List.mem_finRange j) hle
  rwa [List.indexOf_finRange, List.indexOf_finRange, ← Fin.le_def] at this

lemma torchArgmax_eq_of_lt {m : ℕ} [NeZero m] (v : Fin m → ℝ) (i : Fin m)
    (h : ∀ j, j ≠ i → v j < v i) : torchArgmax v = i := by
  by_contra hne
  exact absurd ((torchArgmax_spec v).1 i) (not_le.mpr (h _ hne))

lemma layer_accuracy_eq_card {n : ℕ} [NeZero n] (score : Fin n → Fin n → ℝ) :
    layer_accuracy score =
      ((Finset.univ.filter fun i => torchArgmax (score i) = i).card : ℝ) / n := by
  rw [layer_accuracy, Finset.sum_boole]

/-- C4: `layer_accuracy` takes the argmax of each row with ties broken by the
first occurrence (the argmax is a maximiser and is at most every index with
an equal or larger value), and returns the fraction of rows whose argmax
equals the row index, a real number in `[0, 1]`. -/
theorem layer_accuracy_argmax_fraction {n : ℕ} [NeZero n]
    (score : Fin n → Fin n → ℝ) :
    (∀ i, (∀ j, score i j ≤ score i (torchArgmax (score i))) ∧
      (∀ j, score i (torchArgmax (score i)) ≤ score i j →
        torchArgmax (score i) ≤ j)) ∧
    layer_accuracy score =
      ((Finset.univ.filter fun i => torchArgmax (score i) = i).card : ℝ) / n ∧
    0 ≤ layer_accuracy score ∧ layer_accuracy score ≤ 1 := by
  have hn : (0 : ℝ) < n := by
    exact_mod_cast Nat.pos_of_ne_zero (NeZero.ne n)
  have hcard : ((Finset.univ.filter fun i => torchArgmax (score i) = i).card : ℝ) ≤ n := by
    calc ((Finset.univ.filter fun i => torchArgmax (score i) = i).card : ℝ)
        ≤ ((Finset.univ : Finset (Fin n)).card : ℝ) := by
          exact_mod_cast Finset.card_filter_le _ _
      _ = n := by simp
  refine ⟨fun i => torchArgmax_spec (score i), layer_accuracy_eq_card score, ?_, ?_⟩
  · rw [layer_accuracy_eq_card]
    positivity
  · rw [layer_accuracy_eq_card]
    exact div_le_one_of_le₀ hcard hn.le

/-- Witness for C4 on a concrete 2-by-2 score matrix. -/
theorem layer_accuracy_argmax_fraction_witness :
    0 ≤ layer_accuracy (fun (_ _ : Fin 2) => (0 : ℝ)) ∧
    layer_accuracy (fun (_ _ : Fin 2) => (0 : ℝ)) ≤ 1 :=
  ⟨(layer_accuracy_argmax_fraction (fun (_ _ : Fin 2) => (0 : ℝ))).2.2.1,
   (layer_accuracy_argmax_fraction (fun (_ _ : Fin 2) => (0 : ℝ))).2.2.2⟩

/-- C5: with at least one unmasked position per sequence, mean pooling
returns the average of the hidden vectors at positions with mask 1; with an
all-ones mask it is the arithmetic mean of all token vectors, and with
exactly one unmasked token it is the vector of that token. -/
theorem mean_hidden_state_masked_average {b l h : ℕ}
    (hs : Fin b → Fin l → Fin h → ℝ) (mask : Fin b → Fin l → Bool)
    (hmask : ∀ i, ∃ j, mask i j = true) :
    (∀ i d, mean_hidden_state hs mask i d =
      (∑ j ∈ Finset.univ.filter (fun j => mask i j = true), hs i j d) /
        ((Finset.univ.filter (fun j => mask i j = true)).card : ℝ)) ∧
    (∀ i d, (∀ j, mask i j = true) →
      mean_hidden_state hs mask i d = (∑ j, hs i j d) / (l : ℝ)) ∧
    (∀ i d j0, mask i j0 = true → (∀ j, j ≠ j0 → mask i j = false) →
      mean_hidden_state hs mask i d = hs i j0 d) := by
  have key : ∀ i d, mean_hidden_state hs mask i d =
      (∑ j ∈ Finset.univ.filter (fun j => mask i j = true), hs i j d) /
        ((Finset.univ.filter (fun j => mask i j = true)).card : ℝ) := by
    intro i d
    rw [mean_hidden_state, Finset.sum_boole, Finset.sum_filter]
    congr 1
    refine Finset.sum_congr rfl fun j _ => ?_
    by_cases hj : mask i j <;> simp [hj]
  refine ⟨key, fun i d hall => ?_, fun i d j0 h0 huni => ?_⟩
  · rw [key i d]
    have hfil : Finset.univ.filter (fun j => mask i j = true) =
        (Finset.univ : Finset (Fin l)) :=
      Finset.filter_true_of_mem fun j _ => hall j
    rw [hfil, Finset.card_univ, Fintype.card_fin]
  · rw [key i d]
    have hfil : Finset.univ.filter (fun j => mask i j = true) = {j0} := by
      ext j
      simp only [Finset.mem_filter, Finset.mem_univ, true_and, Finset.mem_singleton]
      constructor
      · intro hj
        by_contra hne
        rw [huni j hne] at hj
        exact Bool.false_ne_true hj
      · intro hj
        exact hj ▸ h0
    rw [hfil, Finset.sum_singleton, Finset.card_singleton]
    norm_num

/-- Witness for C5: on mask `[1,1,0]` and rows `[[1,1],[3,3],[9,9]]`, mean
pooling returns 2 in the first coordinate. -/
theorem mean_hidden_state_masked_average_witness :
    (∀ i, ∃ j, maskC5 i j = true) ∧ mean_hidden_state hsC5 maskC5 0 0 = 2 := by
  refine ⟨by decide, ?_⟩
  have h := (mean_hidden_state_masked_average hsC5 maskC5 (by decide)).1 0 0
  rw [h]
  have hfil : Finset.univ.filter (fun j => maskC5 0 j = true) =
      ({0, 1} : Finset (Fin 3)) := by decide
  rw [hfil]
  rw [Finset.sum_insert (by decide), Finset.sum_singleton]
  have hc : (({0, 1} : Finset (Fin 3)).card : ℝ) = 2 := by norm_num
  rw [hc]
  norm_num [hsC5]

lemma maskCount_le {b l : ℕ} (mask : Fin b → Fin l → Bool) (i : Fin b) :
    maskCount mask i ≤ l := by
  calc maskCount mask i ≤ ∑ _j : Fin l, 1 :=
        Finset.sum_le_sum fun j _ => by split <;> omega
    _ = l := by simp

lemma torchWrapIndex_lt {l : ℕ} (hl : 0 < l) (c : ℕ) (hc : c ≤ l) :
    torchWrapIndex l ((c : ℤ) - 1) < l := by
  rcases c with _ | c
  · rw [torchWrapIndex, if_pos (by norm_num)]
    omega
  · rw [torchWrapIndex, if_neg (by omega)]
    omega

lemma maskCount_sub_one_lt {b l : ℕ} [NeZero l]
    (mask : Fin b → Fin l → Bool) (i : Fin b) : maskCount mask i - 1 < l := by
  have h1 := maskCount_le mask i
  have h2 := Nat.pos_of_ne_zero (NeZero.ne l)
  omega

lemma maskCount_eq_card {b l : ℕ} (mask : Fin b → Fin l → Bool) (i : Fin b) :
    maskCount mask i = (Finset.univ.filter (fun j => mask i j = true)).card := by
  rw [maskCount, Finset.card_filter]

lemma maskCount_pos {b l : ℕ} (mask : Fin b → Fin l → Bool) (i : Fin b)
    (h : ∃ j, mask i j = true) : 0 < maskCount mask i := by
  obtain ⟨j0, hj0⟩ := h
  rw [maskCount_eq_card]
  exact Finset.card_pos.mpr ⟨j0, by simp [hj0]⟩

/-- Under a right-padded mask, a position is unmasked exactly when its index
is below the mask count. -/
lemma mask_true_iff_lt_maskCount {b l : ℕ} (mask : Fin b → Fin l → Bool)
    (i : Fin b)
    (hpad : ∀ (j j' : Fin l), j ≤ j' → mask i j' = true → mask i j = true)
    (j : Fin l) : mask i j = true ↔ j.val < maskCount mask i := by
  rw [maskCount_eq_card]
  constructor
  · intro hj
    have hsub : Finset.Iic j ⊆ Finset.univ.filter (fun j' => mask i j' = true) := by
      intro x hx
      rw [Finset.mem_Iic] at hx
      simp only [Finset.mem_filter, Finset.mem_univ, true_and]
      exact hpad x j hx hj
    have := Finset.card_le_card hsub
    rw [Fin.card_Iic] at this
    omega
  · intro hlt
    by_contra hj
    have hsub : Finset.univ.filter (fun j' => mask i j' = true) ⊆ Finset.Iio j := by
      intro x hx
      simp only [Finset.mem_filter, Finset.mem_univ, true_and] at hx
      rw [Finset.mem_Iio]
      by_contra hge
      exact hj (hpad j x (not_lt.mp hge) hx)
    have := Finset.card_le_card hsub
    rw [Fin.card_Iio] at this
    omega

/-- C6: with a right-padded mask having at least one 1 per sequence,
last-token pooling selects the hidden vector at index `count_of_ones - 1`,
which is the last unmasked position; with an all-ones mask it selects index
`l - 1`. -/
theorem last_token_hidden_state_spec {b l h : ℕ} [NeZero l]
    (hs : Fin b → Fin l → Fin h → ℝ) (mask : Fin b → Fin l → Bool)
    (hone : ∀ i, ∃ j, mask i j = true)
    (hpad : ∀ i (j j' : Fin l), j ≤ j' → mask i j' = true → mask i j = true) :
    (∀ i d, last_token_hidden_state hs mask i d =
      hs i ⟨maskCount mask i - 1, maskCount_sub_one_lt mask i⟩ d) ∧
    (∀ i, mask i ⟨maskCount mask i - 1, maskCount_sub_one_lt mask i⟩ = true ∧
      ∀ j : Fin l, maskCount mask i - 1 < j.val → mask i j = false) ∧
    (∀ i d, (∀ j, mask i j = true) →
      last_token_hidden_state hs mask i d =
        hs i ⟨l - 1, Nat.sub_lt (Nat.pos_of_ne_zero (NeZero.ne l)) Nat.one_pos⟩ d) := by
  have hidx : ∀ i, torchWrapIndex l ((maskCount mask i : ℤ) - 1) =
      maskCount mask i - 1 := by
    intro i
    have hpos := maskCount_pos mask i (hone i)
    rw [torchWrapIndex, if_neg (by omega)]
    omega
  have key : ∀ i d, last_token_hidden_state hs mask i d =
      hs i ⟨maskCount mask i - 1, maskCount_sub_one_lt mask i⟩ d := by
    intro i d
    show hs i ⟨torchWrapIndex l ((maskCount mask i : ℤ) - 1) % l, _⟩ d = _
    congr 1
    refine Fin.mk_eq_mk.mpr ?_
    rw [hidx i]
    exact Nat.mod_eq_of_lt (maskCount_sub_one_lt mask i)
  refine ⟨key, fun i => ?_, fun i d hall => ?_⟩
  · have hpos := maskCount_pos mask i (hone i)
    constructor
    · rw [mask_true_iff_lt_maskCount mask i (hpad i)]
      simp only
      omega
    · intro j hj
      have := mask_true_iff_lt_maskCount mask i (hpad i) j
      rcases hmj : mask i j with _ | _
      · rfl
      · rw [this] at hmj
        omega
  · have hcnt : maskCount mask i = l := by
      rw [maskCount]
      calc (∑ j : Fin l, if mask i j then 1 else 0)
          = ∑ _j : Fin l, 1 := Finset.sum_congr rfl fun j _ => by rw [hall j, if_pos rfl]
        _ = l := by simp
    rw [key i d]
    congr 1
    exact Fin.mk_eq_mk.mpr (by rw [hcnt])

/-- Witness for C6: on mask `[1,1,1,0,0]` the selected row is index 2,
whose value here is 30. -/
theorem last_token_hidden_state_spec_witness :
    (∀ i, ∃ j, maskC6 i j = true) ∧
    last_token_hidden_state hsC6 maskC6 0 0 = 30 := by
  refine ⟨by decide, ?_⟩
  have h := (last_token_hidden_state_spec hsC6 maskC6 (by decide)
    (by decide)).1 0 0
  rw [h]
  have hcnt : maskCount maskC6 0 = 3 := by decide
  have : (⟨maskCount maskC6 0 - 1, maskCount_sub_one_lt maskC6 0⟩ : Fin 5) =
      (2 : Fin 5) := Fin.mk_eq_mk.mpr (by rw [hcnt])
  rw [this]
  norm_num [hsC6]

lemma chunkList_flatten {α : Type} (bs : ℕ) (hbs : 0 < bs) (xs : List α) :
    (chunkList bs xs).flatten = xs := by
  have H : ∀ (n : ℕ) (ys : List α), ys.length ≤ n → (chunkList bs ys).flatten = ys := by
    intro n
    induction n with
    | zero =>
      intro ys hy
      rw [List.eq_nil_of_length_eq_zero (Nat.le_zero.mp hy)]
      simp [chunkList]
    | succ n ih =>
      intro ys hy
      rcases ys with _ | ⟨y, rest⟩
      · simp [chunkList]
      · rw [chunkList, dif_neg (Nat.pos_iff_ne_zero.mp hbs), List.flatten_cons]
        have hlen : ((y :: rest).drop bs).length ≤ n := by
          rw [List.length_drop, List.length_cons]
          rw [List.length_cons] at hy
          omega
        rw [ih _ hlen]
        exact List.take_append_drop bs (y :: rest)
  exact H xs.length xs le_rfl

/-- C3: whenever the model-tokenizer-pooling composite processes each
sentence independently of its batch (value `f s layer` for sentence `s`),
`layer_representation` returns, for every layer, the same per-layer matrix
for every positive batch size, namely the rows `f s layer` in input order:
the per-batch partitioning and per-batch padding do not affect the pooled
outputs. -/
theorem layer_representation_batch_invariant {V : Type} (L : ℕ)
    (embed : List String → Fin L → List V) (f : String → Fin L → V)
    (hembed : ∀ batch layer, embed batch layer = batch.map fun s => f s layer)
    (sentences : List String) (bs1 bs2 : ℕ) (h1 : 0 < bs1) (h2 : 0 < bs2) :
    (∀ layer, layer_representation L embed sentences bs1 layer =
      sentences.map fun s => f s layer) ∧
    layer_representation L embed sentences bs1 =
      layer_representation L embed sentences bs2 := by
  have key : ∀ bs, 0 < bs → ∀ layer,
      layer_representation L embed sentences bs layer =
        sentences.map fun s => f s layer := by
    intro bs hbs layer
    rw [layer_representation]
    calc ((chunkList bs sentences).map fun batch => embed batch layer).flatten
        = ((chunkList bs sentences).map fun batch =>
            batch.map fun s => f s layer).flatten := by
          congr 1
          exact List.map_congr_left fun batch _ => hembed batch layer
      _ = ((chunkList bs sentences).flatten).map fun s => f s layer := by
          rw [List.map_flatten]
      _ = sentences.map fun s => f s layer := by rw [chunkList_flatten bs hbs]
  refine ⟨key bs1 h1, funext fun layer => ?_⟩
  rw [key bs1 h1 layer, key bs2 h2 layer]

/-- Witness for C3: ten sentences, batch size 2 versus batch size 10,
identical per-layer outputs. -/
theorem layer_representation_batch_invariant_witness :
    0 < 2 ∧ 0 < 10 ∧
    layer_representation 2 embedLen
        ["a", "bb", "ccc", "dd", "e", "ffff", "g", "hh", "iii", "jj"] 2 =
      layer_representation 2 embedLen
        ["a", "bb", "ccc", "dd", "e", "ffff", "g", "hh", "iii", "jj"] 10 :=
  ⟨Nat.zero_lt_two, by omega,
    (layer_representation_batch_invariant 2 embedLen
      (fun s _ => s.length) (fun _ _ => rfl)
      ["a", "bb", "ccc", "dd", "e", "ffff", "g", "hh", "iii", "jj"]
      2 10 Nat.zero_lt_two (by omega)).2⟩

lemma filterPairsAux_isSome_iff (tokLen : String → ℕ) :
    ∀ (base target : List String),
      (filterPairsAux tokLen base target).isSome ↔ base.length ≤ target.length
  | [], _ => by simp [filterPairsAux]
  | _ :: _, [] => by simp [filterPairsAux]
  | b :: bs, t :: ts => by
    have ih := filterPairsAux_isSome_iff tokLen bs ts
    rcases h : filterPairsAux tokLen bs ts with _ | rest
    · rw [h] at ih
      simp only [Option.isSome_none, Bool.false_eq_true, false_iff,
        not_le] at ih
      simp only [filterPairsAux, h, Option.isSome_none, Bool.false_eq_true,
        false_iff, not_le, List.length_cons]
      omega
    · rw [h] at ih
      simp only [Option.isSome_some, true_iff] at ih
      simp only [filterPairsAux, h, Option.isSome_some, true_iff,
        List.length_cons]
      omega

lemma filterPairsAux_aligned (tokLen : String → ℕ) :
    ∀ (base target : List String), base.length = target.length →
      ∃ ps, filterPairsAux tokLen base target = some ps ∧
        ∀ idx, idx < ps.length → ∃ src, src < base.length ∧
          (ps.getD idx default).1 = base.getD src default ∧
          (ps.getD idx default).2 = target.getD src default
  | [], [] => fun _ => ⟨[], rfl, fun idx hidx => by simp at hidx⟩
  | [], _ :: _ => fun h => by simp at h
  | _ :: _, [] => fun h => by simp at h
  | b :: bs, t :: ts => fun h => by
    have hlen : bs.length = ts.length := by
      simpa using h
    obtain ⟨rest, hrest, hal⟩ := filterPairsAux_aligned tokLen bs ts hlen
    by_cases hkeep : tokLen b = 1 ∧ tokLen t = 1
    · refine ⟨(b, t) :: rest,
        by simp only [filterPairsAux, hrest]; rw [if_pos hkeep],
        fun idx hidx => ?_⟩
      rcases idx with _ | idx
      · exact ⟨0, by simp⟩
      · obtain ⟨src, hsrc, h1, h2⟩ :=
          hal idx (by simpa using Nat.lt_of_succ_lt_succ hidx)
        exact ⟨src + 1, by simpa using hsrc, by simpa using h1, by simpa using h2⟩
    · refine ⟨rest,
        by simp only [filterPairsAux, hrest]; rw [if_neg hkeep],
        fun idx hidx => ?_⟩
      obtain ⟨src, hsrc, h1, h2⟩ := hal idx hidx
      exact ⟨src + 1, by simpa using hsrc, by simpa using h1, by simpa using h2⟩

/-- C8: on equal-length aligned inputs both `sample_pairs` (any sample
size) and `filter_pairs` return two lists of identical length in which
entry `idx` of both outputs originates from one common source index. -/
theorem sample_and_filter_preserve_alignment (base target : List String)
    (hlen : base.length = target.length)
    (sampler : ℕ → ℕ → List ℕ) (sample_size : ℕ)
    (hslen : ∀ n k, k ≤ n → (sampler n k).length = k)
    (hsmem : ∀ n k, k ≤ n → ∀ i ∈ sampler n k, i < n)
    (tokLen : String → ℕ) :
    (∃ sb st, sample_pairs base target sampler sample_size = some (sb, st) ∧
      sb.length = st.length ∧
      ∀ idx, idx < sb.length → ∃ src, src < base.length ∧
        sb.getD idx default = base.getD src default ∧
        st.getD idx default = target.getD src default) ∧
    (∃ fb ft, filter_pairs base target tokLen = some (fb, ft) ∧
      fb.length = ft.length ∧
      ∀ idx, idx < fb.length → ∃ src, src < base.length ∧
        fb.getD idx default = base.getD src default ∧
        ft.getD idx default = target.getD src default) := by
  constructor
  · have hmin : min sample_size base.length ≤ base.length := Nat.min_le_right _ _
    set indices := sampler base.length (min sample_size base.length) with hind
    refine ⟨indices.map fun i => base.getD i default,
            indices.map fun i => target.getD i default,
            by rw [sample_pairs, if_pos hlen], by simp, fun idx hidx => ?_⟩
    rw [List.length_map] at hidx
    refine ⟨indices.getD idx 0, ?_, ?_, ?_⟩
    · rw [List.getD_eq_getElem _ _ hidx]
      exact hsmem _ _ hmin _ (List.getElem_mem hidx)
    · rw [List.getD_eq_getElem _ _ (by simpa using hidx),
        List.getD_eq_getElem _ _ hidx, List.getElem_map]
    · rw [List.getD_eq_getElem _ _ (by simpa using hidx),
        List.getD_eq_getElem _ _ hidx, List.getElem_map]
  · obtain ⟨ps, hps, hal⟩ := filterPairsAux_aligned tokLen base target hlen
    refine ⟨ps.map Prod.fst, ps.map Prod.snd,
      by rw [filter_pairs, hps, Option.map_some'], by simp, fun idx hidx => ?_⟩
    rw [List.length_map] at hidx
    obtain ⟨src, hsrc, h1, h2⟩ := hal idx hidx
    refine ⟨src, hsrc, ?_, ?_⟩
    · rw [List.getD_eq_getElem _ _ (by simpa using hidx), List.getElem_map,
        ← List.getD_eq_getElem _ _ hidx, h1]
    · rw [List.getD_eq_getElem _ _ (by simpa using hidx), List.getElem_map,
        ← List.getD_eq_getElem _ _ hidx, h2]

/-- Witness for C8 on concrete two-element lists. -/
theorem sample_and_filter_preserve_alignment_witness :
    (∃ sb st, sample_pairs ["x", "y"] ["u", "v"] firstKSampler 1 = some (sb, st) ∧
      sb.length = st.length ∧
      ∀ idx, idx < sb.length → ∃ src, src < (["x", "y"] : List String).length ∧
        sb.getD idx default = (["x", "y"] : List String).getD src default ∧
        st.getD idx default = (["u", "v"] : List String).getD src default) ∧
    (∃ fb ft, filter_pairs ["x", "y"] ["u", "v"] (fun _ => 1) = some (fb, ft) ∧
      fb.length = ft.length ∧
      ∀ idx, idx < fb.length → ∃ src, src < (["x", "y"] : List String).length ∧
        fb.getD idx default = (["x", "y"] : List String).getD src default ∧
        ft.getD idx default = (["u", "v"] : List String).getD src default) :=
  sample_and_filter_preserve_alignment ["x", "y"] ["u", "v"] rfl
    firstKSampler 1
    (fun n k _ => List.length_range k)
    (fun n k hk i hi => lt_of_lt_of_le (List.mem_range.mp hi) hk)
    (fun _ => 1)

/-- Counterexample to C9: on base `["a"]` and the longer target
`["a", "b"]` (unequal lengths), `filter_pairs` does not fail: it silently
returns output built from the first `len(base)` pairs. -/
theorem filter_pairs_no_length_check :
    (["a"] : List String).length ≠ (["a", "b"] : List String).length ∧
    filter_pairs ["a"] ["a", "b"] (fun _ => 1) = some (["a"], ["a"]) :=
  ⟨by decide, rfl⟩

/-- C9 amended: `sample_pairs` fails fast on unequal lengths (its
assertion), while `filter_pairs` performs no length check: it fails (with
an index error) exactly when `base` is longer than `target`, and produces
output whenever `base` is not longer, silently ignoring the tail of a
longer `target`. -/
theorem sample_pairs_asserts_filter_pairs_does_not
    (base target : List String) (sampler : ℕ → ℕ → List ℕ) (sample_size : ℕ)
    (tokLen : String → ℕ) :
    (base.length ≠ target.length →
      sample_pairs base target sampler sample_size = none) ∧
    (target.length < base.length → filter_pairs base target tokLen = none) ∧
    (base.length ≤ target.length →
      ∃ out, filter_pairs base target tokLen = some out) := by
  refine ⟨fun hne => by rw [sample_pairs, if_neg hne], fun hlt => ?_, fun hle => ?_⟩
  · have h := filterPairsAux_isSome_iff tokLen base target
    have hnone : filterPairsAux tokLen base target = none :=
      Option.not_isSome_iff_eq_none.mp (by rw [h]; omega)
    rw [filter_pairs, hnone]
    rfl
  · have h := (filterPairsAux_isSome_iff tokLen base target).mpr hle
    obtain ⟨ps, hps⟩ := Option.isSome_iff_exists.mp h
    exact ⟨_, by rw [filter_pairs, hps, Option.map_some']⟩

/-- Witness for the amended C9: `sample_pairs` rejects the unequal-length
input on which `filter_pairs` with a longer base fails with an index
error. -/
theorem sample_pairs_asserts_filter_pairs_does_not_witness :
    (["a", "b"] : List String).length ≠ (["a"] : List String).length ∧
    sample_pairs ["a", "b"] ["a"] firstKSampler 1 = none ∧
    filter_pairs ["a", "b"] ["a"] (fun _ => 1) = none :=
  ⟨by decide,
    (sample_pairs_asserts_filter_pairs_does_not ["a", "b"] ["a"]
      firstKSampler 1 (fun _ => 1)).1 (by decide),
    (sample_pairs_asserts_filter_pairs_does_not ["a", "b"] ["a"]
      firstKSampler 1 (fun _ => 1)).2.1 (by decide)⟩

lemma range_map_getD {α : Type} (l : List α) (d : α) :
    (List.range l.length).map (fun i => l.getD i d) = l := by
  induction l with
  | nil => simp
  | cons x xs ih =>
    rw [List.length_cons, List.range_succ_eq_map, List.map_cons,
      List.getD_cons_zero, List.map_map]
    have hcomp : ((fun i => (x :: xs).getD i d) ∘ Nat.succ) =
        fun i => xs.getD i d := by
      funext i
      simp [List.getD_cons_succ]
    rw [hcomp, ih]

lemma perm_range_of_nodup (indices : List ℕ) (n : ℕ)
    (hlen : indices.length = n) (hnodup : indices.Nodup)
    (hmem : ∀ i ∈ indices, i < n) : indices.Perm (List.range n) := by
  refine List.perm_of_nodup_nodup_toFinset_eq hnodup (List.nodup_range n) ?_
  refine Finset.eq_of_subset_of_card_le ?_ ?_
  · intro i hi
    rw [List.mem_toFinset] at hi ⊢
    exact List.mem_range.mpr (hmem i hi)
  · rw [List.toFinset_card_of_nodup (List.nodup_range n), List.length_range,
      List.toFinset_card_of_nodup hnodup, hlen]

/-- C10: with a sample size exceeding the list length, `sample_pairs` does
not raise: the size is clamped to the length and both full lists are
returned, in some order, with output lengths equal to the input lengths. -/
theorem sample_pairs_clamps_oversized_sample
    (base target : List String) (hlen : base.length = target.length)
    (sampler : ℕ → ℕ → List ℕ) (sample_size : ℕ)
    (hm : base.length < sample_size)
    (hslen : ∀ n k, k ≤ n → (sampler n k).length = k)
    (hsnodup : ∀ n k, k ≤ n → (sampler n k).Nodup)
    (hsmem : ∀ n k, k ≤ n → ∀ i ∈ sampler n k, i < n) :
    ∃ sb st, sample_pairs base target sampler sample_size = some (sb, st) ∧
      sb.length = base.length ∧ st.length = target.length ∧
      sb.Perm base ∧ st.Perm target := by
  have hmin : min sample_size base.length = base.length :=
    Nat.min_eq_right (Nat.le_of_lt hm)
  have hperm : (sampler base.length base.length).Perm (List.range base.length) :=
    perm_range_of_nodup _ _ (hslen _ _ le_rfl) (hsnodup _ _ le_rfl)
      (hsmem _ _ le_rfl)
  refine ⟨(sampler base.length base.length).map fun i => base.getD i default,
          (sampler base.length base.length).map fun i => target.getD i default,
          ?_, ?_, ?_, ?_, ?_⟩
  · rw [sample_pairs, if_pos hlen]
    simp only [hmin]
  · rw [List.length_map, hslen _ _ le_rfl]
  · rw [List.length_map, hslen _ _ le_rfl, hlen]
  · have := hperm.map fun i => base.getD i default
    rwa [range_map_getD base default] at this
  · have h2 : (List.range base.length).map (fun i => target.getD i default) =
        target := by
      rw [hlen]
      exact range_map_getD target default
    have := hperm.map fun i => target.getD i default
    rwa [h2] at this

/-- Witness for C10: sample size 3 on two-element lists returns both full
lists, here in reversed order. -/
theorem sample_pairs_clamps_oversized_sample_witness :
    (["x", "y"] : List String).length < 3 ∧
    ∃ sb st, sample_pairs ["x", "y"] ["u", "v"] revSampler 3 = some (sb, st) ∧
      sb.length = (["x", "y"] : List String).length ∧
      st.length = (["u", "v"] : List String).length ∧
      sb.Perm ["x", "y"] ∧ st.Perm ["u", "v"] :=
  ⟨by decide,
    sample_pairs_clamps_oversized_sample ["x", "y"] ["u", "v"] rfl
      revSampler 3 (by decide)
      (fun n k _ => by simp [revSampler])
      (fun n k _ => by simp [revSampler, List.nodup_range])
      (fun n k hk i hi =>
        lt_of_lt_of_le (List.mem_range.mp (List.mem_reverse.mp hi)) hk)⟩

lemma sum_sq_div_l2norm {h : ℕ} (v : Fin h → ℝ) (hv : l2norm v ≠ 0) :
    ∑ d, (v d / l2norm v) ^ 2 = 1 := by
  have hS : (0 : ℝ) ≤ ∑ d, v d ^ 2 := Finset.sum_nonneg fun d _ => sq_nonneg _
  have hne : (∑ d, v d ^ 2) ≠ 0 := by
    intro h0
    exact hv (by rw [l2norm, h0, Real.sqrt_zero])
  calc ∑ d, (v d / l2norm v) ^ 2
      = (∑ d, v d ^ 2) / l2norm v ^ 2 := by
        rw [Finset.sum_div]
        exact Finset.sum_congr rfl fun d _ => div_pow _ _ _
    _ = (∑ d, v d ^ 2) / (∑ d, v d ^ 2) := by rw [l2norm, Real.sq_sqrt hS]
    _ = 1 := div_self hne

lemma cosine_self_diag {n h : ℕ} (first : Fin n → Fin h → ℝ) (i : Fin n)
    (hi : l2norm (first i) ≠ 0) : cosine_similarity first first i i = 1 := by
  rw [cosine_similarity, ← sum_sq_div_l2norm (first i) hi]
  exact Finset.sum_congr rfl fun d _ => (sq _).symm

lemma cosine_le_one {n1 n2 h : ℕ} (first : Fin n1 → Fin h → ℝ)
    (second : Fin n2 → Fin h → ℝ) (i : Fin n1) (j : Fin n2)
    (hu : l2norm (first i) ≠ 0) (hw : l2norm (second j) ≠ 0) :
    cosine_similarity first second i j ≤ 1 := by
  rw [cosine_similarity]
  calc ∑ d, (first i d / l2norm (first i)) * (second j d / l2norm (second j))
      ≤ Real.sqrt (∑ d, (first i d / l2norm (first i)) ^ 2) *
          Real.sqrt (∑ d, (second j d / l2norm (second j)) ^ 2) :=
        Real.sum_mul_le_sqrt_mul_sqrt _ _ _
    _ = 1 := by
        rw [sum_sq_div_l2norm _ hu, sum_sq_div_l2norm _ hw, Real.sqrt_one, mul_one]

/-- C2 amended: for identical base and target sets with no zero-norm rows,
no duplicate rows and no ties, the `"absolute"` variant scores give row
argmax equal to the row index everywhere and `layer_accuracy` 1.0.  (The
`"distance"` and `"ratio"` variants do not satisfy this; see the
counterexample.) -/
theorem margin_absolute_self_retrieval {n h : ℕ} [NeZero n]
    (first : Fin n → Fin h → ℝ) (k : ℕ) (eps : ℝ)
    (hnorm : ∀ i, l2norm (first i) ≠ 0)
    (hdup : ∀ i i', i ≠ i' → first i ≠ first i')
    (hties : ∀ i j j', j ≠ j' →
      cosine_similarity first first i j ≠ cosine_similarity first first i j') :
    margin_based_scoring first first k ("absolute") eps =
      some (cosine_similarity first first) ∧
    (∀ i, torchArgmax (cosine_similarity first first i) = i) ∧
    layer_accuracy (cosine_similarity first first) = 1 := by
  have harg : ∀ i, torchArgmax (cosine_similarity first first i) = i := by
    intro i
    refine torchArgmax_eq_of_lt _ i fun j hj => ?_
    have hle : cosine_similarity first first i j ≤ 1 :=
      cosine_le_one first first i j (hnorm i) (hnorm j)
    have hne : cosine_similarity first first i j ≠
        cosine_similarity first first i i := hties i j i hj
    rw [cosine_self_diag first i (hnorm i)]
    rw [cosine_self_diag first i (hnorm i)] at hne
    exact lt_of_le_of_ne hle hne
  refine ⟨margin_based_scoring_absolute first first k eps, harg, ?_⟩
  rw [layer_accuracy]
  have hsum : (∑ i, if torchArgmax (cosine_similarity first first i) = i
      then (1 : ℝ) else 0) = n := by
    rw [Finset.sum_congr rfl fun i _ => if_pos (harg i)]
    simp
  rw [hsum]
  exact div_self (by exact_mod_cast NeZero.ne n)

lemma sqrt_twentyfive : Real.sqrt 25 = 5 := by
  rw [show (25 : ℝ) = 5 ^ 2 by norm_num, Real.sqrt_sq (by norm_num)]

lemma l2norm_ce2 : ∀ i, l2norm (ce2 i) = 5 := by
  intro i
  have hs : (∑ d, ce2 i d ^ 2) = 25 := by
    rw [Fin.sum_univ_two]
    fin_cases i <;> norm_num [ce2]
  rw [l2norm, hs, sqrt_twentyfive]

lemma l2norm_ce2_ne : ∀ i, l2norm (ce2 i) ≠ 0 := by
  intro i
  rw [l2norm_ce2 i]
  norm_num

lemma cosine_ce2 : cosine_similarity ce2 ce2 = ![![1, 3/5], ![3/5, 1]] := by
  funext i j
  rw [cosine_similarity, l2norm_ce2 i, l2norm_ce2 j, Fin.sum_univ_two]
  fin_cases i <;> fin_cases j <;> norm_num [ce2]

/-- Witness for the amended C2, on the concrete matrix `ce2`. -/
theorem margin_absolute_self_retrieval_witness :
    (∀ i, l2norm (ce2 i) ≠ 0) ∧
    (∀ i, torchArgmax (cosine_similarity ce2 ce2 i) = i) ∧
    layer_accuracy (cosine_similarity ce2 ce2) = 1 :=
  ⟨l2norm_ce2_ne,
    (margin_absolute_self_retrieval ce2 4 (1 / 1000000) l2norm_ce2_ne
      (by
        intro i i' hne heq
        fin_cases i <;> fin_cases i' <;> simp at hne ⊢ <;>
          · have h0 := congrFun heq 0
            norm_num [ce2] at h0)
      (by
        intro i j j' hne
        rw [cosine_ce2]
        fin_cases i <;> fin_cases j <;> fin_cases j' <;> simp_all <;> norm_num)).2⟩

lemma topkMean_of_ge {m : ℕ} (k : ℕ) (v : Fin m → ℝ) (hk : m ≤ k) :
    topkMean k v = (∑ j, v j) / m := by
  rw [topkMean, Nat.min_eq_right hk, topkVals]
  have hlen : (sortDesc (List.ofFn v)).length = m := by
    rw [sortDesc_length, List.length_ofFn]
  rw [List.take_of_length_le (le_of_eq hlen), listMean, hlen]
  congr 1
  have hperm : (sortDesc (List.ofFn v)).Perm (List.ofFn v) :=
    List.perm_insertionSort _ _
  rw [hperm.sum_eq, List.sum_ofFn]

lemma l2norm_ce3 : ∀ i, l2norm (ce3 i) = 5 := by
  intro i
  have hs : (∑ d, ce3 i d ^ 2) = 25 := by
    rw [Fin.sum_univ_two]
    fin_cases i <;> norm_num [ce3]
  rw [l2norm, hs, sqrt_twentyfive]

lemma cosine_ce3 : cosine_similarity ce3 ce3 = A3 := by
  funext i j
  rw [cosine_similarity, l2norm_ce3 i, l2norm_ce3 j, Fin.sum_univ_two]
  fin_cases i <;> fin_cases j <;> norm_num [ce3, A3]

lemma margin_ce3 :
    margin_based_scoring ce3 ce3 4 ("distance") (1/1000000) = some S3 := by
  rw [margin_based_scoring_of_ne ce3 ce3 4 ("distance") (1/1000000) (by decide),
    if_pos rfl]
  congr 1
  funext i j
  simp only [cslsBaseline, cosine_ce3, S3]
  rw [topkMean_of_ge 4 _ (by norm_num), topkMean_of_ge 4 _ (by norm_num)]
  have hrow : (∑ j', A3 i j') = 3 * RM3 i := by
    rw [Fin.sum_univ_three]
    fin_cases i <;> norm_num [A3, RM3]
  have hcol : (∑ i', A3 i' j) = 3 * RM3 j := by
    rw [Fin.sum_univ_three]
    fin_cases j <;> norm_num [A3, RM3]
  rw [hrow, hcol]
  push_cast
  ring

lemma S3_no_ties : ∀ i j j' : Fin 3, j ≠ j' → S3 i j ≠ S3 i j' := by
  intro i j j' hne
  fin_cases i <;> fin_cases j <;> fin_cases j' <;>
    simp_all [S3, A3, RM3] <;> norm_num

lemma S3_argmax0 : torchArgmax (S3 0) = 1 := by
  refine torchArgmax_eq_of_lt _ 1 fun j hj => ?_
  fin_cases j
  · norm_num [S3, A3, RM3]
  · simp at hj
  · norm_num [S3, A3, RM3]

lemma S3_argmax1 : torchArgmax (S3 1) = 1 := by
  refine torchArgmax_eq_of_lt _ 1 fun j hj => ?_
  fin_cases j
  · norm_num [S3, A3, RM3]
  · simp at hj
  · norm_num [S3, A3, RM3]

lemma S3_argmax2 : torchArgmax (S3 2) = 2 := by
  refine torchArgmax_eq_of_lt _ 2 fun j hj => ?_
  fin_cases j
  · norm_num [S3, A3, RM3]
  · norm_num [S3, A3, RM3]
  · simp at hj

lemma S3_accuracy : layer_accuracy S3 = 2/3 := by
  rw [layer_accuracy, Fin.sum_univ_three, S3_argmax0, S3_argmax1, S3_argmax2]
  rw [if_neg (by decide), if_pos rfl, if_pos rfl]
  norm_num

/-- Counterexample to C2 as stated: the matrix `ce3` has no zero-norm
rows, no duplicate rows and no ties in the `"distance"` score matrix `S3`,
`first = second = ce3`, yet the argmax of row 0 is column 1, so
`layer_accuracy` is `2/3`, not 1. -/
theorem margin_distance_self_retrieval_fails :
    (∀ i, l2norm (ce3 i) ≠ 0) ∧
    (∀ i i', i ≠ i' → ce3 i ≠ ce3 i') ∧
    (∀ i j j', j ≠ j' → S3 i j ≠ S3 i j') ∧
    margin_based_scoring ce3 ce3 4 ("distance") (1/1000000) = some S3 ∧
    torchArgmax (S3 0) ≠ 0 ∧
    layer_accuracy S3 = 2/3 ∧ (2/3 : ℝ) ≠ 1 := by
  refine ⟨?_, ?_, S3_no_ties, margin_ce3, ?_, S3_accuracy, by norm_num⟩
  · intro i
    rw [l2norm_ce3 i]
    norm_num
  · intro i i' hne heq
    fin_cases i <;> fin_cases i' <;> simp_all <;>
      · have h0 := congrFun heq 0
        norm_num [ce3] at h0
  · rw [S3_argmax0]
    decide

end WordRetrieval
